import Mathlib

/-!
Verification of the ESP-Website Formstack student-application engine
(`esp/application/models.py`) against its natural-language specification.

The Python models are shallowly embedded: a database table becomes a list of
records, a Django model method becomes a Lean function from the relevant table
state to the updated state, a Python exception becomes an `Except` error value,
and `transaction.commit_on_success` becomes "return the initial state when the
body fails".  Every definition is translated from the source file; line numbers
in the doc comments refer to `esp/application/models.py`.
-/

namespace ESPApp

/-! ## Admission state machine (`StudentClassApp`, models.py 140-195) -/

/-- `StudentClassApp.UNASSIGNED` (models.py 158). -/
def UNASSIGNED : Nat := 0

/-- `StudentClassApp.ADMITTED` (models.py 159). -/
def ADMITTED : Nat := 1

/-- `StudentClassApp.WAITLIST` (models.py 160). -/
def WAITLIST : Nat := 2

/-- A row of the `StudentClassApp` table (models.py 140-165): `id` is the
database primary key, `app` the foreign key to the owning `StudentProgramApp`,
`subject` the foreign key to the chosen `ClassSubject`, plus the preference
rank and the admission status.  The teacher-review columns play no role in any
claim and are omitted. -/
structure StudentClassApp where
  id : Nat
  app : Nat
  subject : Nat
  student_preference : Nat
  admission_status : Nat
deriving DecidableEq, Repr

/-- `StudentClassApp.admit` (models.py 178-184): first every class application
of the same owning program application is saved with status `UNASSIGNED`, then
the receiver itself is saved with status `ADMITTED`.  `db` is the table state,
`s` the receiver row. -/
def doAdmit (db : List StudentClassApp) (s : StudentClassApp) :
    List StudentClassApp :=
  ((db.map fun r =>
      if r.app = s.app then { r with admission_status := UNASSIGNED } else r).map
    fun r =>
      if r.id = s.id then { r with admission_status := ADMITTED } else r)

/-- `StudentClassApp.unadmit` (models.py 186-188): save the receiver with
status `UNASSIGNED`; no other row is touched.  (Named `unassignSelf` here.) -/
def unassignSelf (db : List StudentClassApp) (s : StudentClassApp) :
    List StudentClassApp :=
  db.map fun r =>
    if r.id = s.id then { r with admission_status := UNASSIGNED } else r

/-- `StudentClassApp.waitlist` (models.py 190-192): save the receiver with
status `WAITLIST`; no other row is touched. -/
def doWaitlist (db : List StudentClassApp) (s : StudentClassApp) :
    List StudentClassApp :=
  db.map fun r =>
    if r.id = s.id then { r with admission_status := WAITLIST } else r

/-- Python errors that the embedded operations can raise. -/
inductive PyError where
  | DoesNotExist
  | AssertionError
  | KeyError
deriving DecidableEq, Repr

/-- The row filter `studentclassapp_set.filter(admission_status=ADMITTED)`
restricted to the class applications of program application `appId`. -/
def isAdmittedFor (appId : Nat) (r : StudentClassApp) : Bool :=
  r.app = appId ∧ r.admission_status = ADMITTED

/-- The row filter `studentclassapp_set.filter(admission_status=WAITLIST)`
restricted to the class applications of program application `appId`. -/
def isWaitlistedFor (appId : Nat) (r : StudentClassApp) : Bool :=
  r.app = appId ∧ r.admission_status = WAITLIST

/-- `StudentProgramApp.admitted_to_class` (models.py 119-128): filter the class
applications of program application `appId` by `admission_status=ADMITTED`; if
any exists, `assert classapps.count() == 1` and return the subject of the first
one, else return `None`. -/
def admitted_to_class (db : List StudentClassApp) (appId : Nat) :
    Except PyError (Option Nat) :=
  match db.filter (isAdmittedFor appId) with
  | [] => .ok none
  | [r] => .ok (some r.subject)
  | _ :: _ :: _ => .error .AssertionError

/-- `StudentProgramApp.waitlisted_to_class` (models.py 130-138): subjects of
all class applications of `appId` whose status is `WAITLIST`, in table order. -/
def waitlisted_to_class (db : List StudentClassApp) (appId : Nat) : List Nat :=
  (db.filter (isWaitlistedFor appId)).map (·.subject)

/-! ## Subject resolution (`get_subject`, models.py 213-226) -/

/-- A `ClassSubject` of the program's catalog (`program.classes()`), with its
primary key and the anchor's friendly name used for title lookup. -/
structure ClassSubject where
  id : Nat
  friendly_name : String
deriving DecidableEq, Repr

/-- Python `str.strip()`: remove whitespace from both ends. -/
def pyStrip (s : String) : String :=
  String.mk
    (((s.toList.dropWhile Char.isWhitespace).reverse.dropWhile
        Char.isWhitespace).reverse)

/-- `s.partition('|')[0]`: the characters before the first `'|'` (the whole
string when there is none). -/
def pyPartitionFst (s : String) : String :=
  String.mk (s.toList.takeWhile (fun c => c ≠ '|'))

/-- The numeric value of a nonempty all-digit character list, `none`
otherwise. -/
def decimalNat (cs : List Char) : Option Nat :=
  if cs ≠ [] ∧ cs.all Char.isDigit then
    some (cs.foldl (fun n c => 10 * n + (c.toNat - '0'.toNat)) 0)
  else none

/-- Python `int(val)` on a string: optional surrounding whitespace, optional
sign, decimal digits; `none` models the `ValueError` raised otherwise. -/
def pyInt (s : String) : Option Int :=
  match (pyStrip s).toList with
  | '-' :: rest => (decimalNat rest).map (fun n => -(n : Int))
  | '+' :: rest => (decimalNat rest).map (fun n => (n : Int))
  | cs => (decimalNat cs).map (fun n => (n : Int))

/-- `get_subject` (models.py 213-226), the program-local subject resolver of
`fetch`.  `catalog` is `program.classes()`.

Control flow of the source: `val` is the part of the argument before the first
`'|'`; `int(val)` either parses (then the subject is looked up by primary key)
or raises `ValueError` (then the lookup falls back to an exact
`anchor__friendly_name` match on `val.strip()`, returning the first hit or
`None`).  The clause `except ValueError, ClassSubject.DoesNotExist:` is
Python 2 syntax for `except ValueError as <name>`: it catches *only*
`ValueError`, so when `int(val)` parses but no subject has that id, the
`ClassSubject.DoesNotExist` raised by `program.classes().get(id=cls_id)`
propagates out — hence the `.error` branch below. -/
def get_subject (catalog : List ClassSubject) (s : Option String) :
    Except PyError (Option ClassSubject) :=
  match s with
  | none => .ok none
  | some str =>
    let val := pyPartitionFst str
    match pyInt val with
    | some cls_id =>
      match catalog.find? (fun c => (c.id : Int) = cls_id) with
      | some cls => .ok (some cls)
      | none => .error .DoesNotExist
    | none =>
      let cls_title := pyStrip val
      match catalog.filter (fun c => c.friendly_name = cls_title) with
      | [] => .ok none
      | cls :: _ => .ok (some cls)

/-! ## Response formatting (`FormstackStudentProgramApp.get_responses`,
models.py 298-310) -/

/-- One entry of `submission.data()`: `{field: field_id, value: string}`. -/
structure ResponseEntry where
  field : Nat
  value : String
deriving DecidableEq, Repr

/-- One entry of `form.field_info()`: `{id: field_id, label: string}`. -/
structure FieldInfo where
  id : Nat
  label : String
deriving DecidableEq, Repr

/-- The dict `{ field['id']: field['label'] for field in field_info }`: on
duplicate ids the later entry wins, so look up the last matching entry. -/
def idToLabel (field_info : List FieldInfo) (k : Nat) : Option String :=
  (field_info.reverse.find? (fun f => f.id = k)).map (·.label)

/-- `get_responses` (models.py 298-310): walk the submission data in order,
pairing each entry's label `id_to_label[response['field']]` with its value;
a field id absent from the dict raises `KeyError`. -/
def get_responses (field_info : List FieldInfo) :
    List ResponseEntry → Except PyError (List (String × String))
  | [] => .ok []
  | e :: rest =>
    match idToLabel field_info e.field with
    | none => .error .KeyError
    | some lab =>
      match get_responses field_info rest with
      | .ok result => .ok ((lab, e.value) :: result)
      | .error err => .error err

/-! ## A generic get-or-create upsert store

Both tables written by `fetch` follow the same pattern: look a row up by a
key (`self.get(submission_id=...)`, `objects.get(app=..., student_preference=...)`),
update its value columns if found, create it otherwise.  The idempotence of
`fetch` is proved once for this generic store and instantiated twice. -/

section KeyedStore

variable {R K V : Type}
variable [DecidableEq K]
variable (key : R → K) (val : R → V) (set : R → V → R) (mk : K → V → R)

/-- Get-or-create upsert: if a row with key `k` exists, overwrite the value
columns of every row with that key (the key is unique in every reachable
table state, so this is the single row `get` returns), else append a fresh
row. -/
def kUpsert (db : List R) (k : K) (v : V) : List R :=
  match db.find? (fun r => key r = k) with
  | some _ => db.map (fun r => if key r = k then set r v else r)
  | none => db ++ [mk k v]

/-- Apply a list of keyed writes left to right. -/
def kApply (db : List R) (ws : List (K × V)) : List R :=
  ws.foldl (fun d w => kUpsert key set mk d w.1 w.2) db

/-- Overwrite a single row in place when its key matches. -/
def kUpd1 (w : K × V) (r : R) : R :=
  if key r = w.1 then set r w.2 else r

/-- Apply all writes to one row in place. -/
def kChain (ws : List (K × V)) (r : R) : R :=
  ws.foldl (fun r0 w => kUpd1 key set w r0) r

/-- The value of the last write to key `k`, if any. -/
def kLastVal : List (K × V) → K → Option V
  | [], _ => none
  | w :: t, k =>
    match kLastVal t k with
    | some v => some v
    | none => if w.1 = k then some w.2 else none

/-- Whether some row of the table has key `k`. -/
def kHasKey (db : List R) (k : K) : Bool :=
  db.any (fun r => key r = k)

end KeyedStore

/-! ## The Formstack fetch engine
(`FormstackStudentProgramAppManager.fetch`, models.py 200-273) -/

/-- A local user (`ESPUser`), looked up by username. -/
structure ESPUser where
  id : Nat
  username : String
deriving DecidableEq, Repr

/-- A Formstack submission: its id and its `data()` entries. -/
structure Submission where
  id : Nat
  data : List ResponseEntry
deriving DecidableEq, Repr

/-- The field-id columns of `FormstackAppSettings` (models.py 25-28); each is
nullable. -/
structure FormstackAppSettings where
  username_field : Option Nat
  coreclass1_field : Option Nat
  coreclass2_field : Option Nat
  coreclass3_field : Option Nat
deriving DecidableEq, Repr

/-- `data_dict.get(k)` for
`data_dict = { int(entry['field']): entry['value'] for entry in submission.data() }`
(models.py 232-233, 236, 244-246): later duplicate fields win in the dict
comprehension, and the null field-id settings match no key. -/
def dataDictGet (data : List ResponseEntry) (k : Option Nat) : Option String :=
  match k with
  | none => none
  | some kk => ((data.reverse).find? (fun e => e.field = kk)).map (·.value)

/-- `ESPUser.objects.get(username=username)` (models.py 237-240): usernames
are unique, so Django's `get` is the first match; no match models the
`ESPUser.DoesNotExist` that makes `fetch` skip the submission.  A `None`
username matches no user. -/
def lookupUser (users : List ESPUser) (uname : Option String) :
    Option ESPUser :=
  match uname with
  | none => none
  | some u => users.find? (fun usr => usr.username = u)

/-- A row of the `StudentProgramApp` table as written by `fetch`
(models.py 248-255): the unique external `submission_id` (models.py 96) and
the `user` and `program` foreign keys that `fetch` assigns.  Columns `fetch`
never writes (admin status/comment) are omitted. -/
structure AppRec where
  submission_id : Nat
  user : Nat
  program : Nat
deriving DecidableEq, Repr

/-- A row of the `StudentClassApp` table as written by `fetch`
(models.py 257-265), identified by its unique `(app, student_preference)` key
(models.py 194-195); the owning app is identified by its unique submission id.
Columns `fetch` never writes are omitted. -/
structure ClassAppRow where
  app : Nat
  student_preference : Nat
  subject : Nat
deriving DecidableEq, Repr

/-- The database state `fetch` reads and writes. -/
structure FDB where
  apps : List AppRec
  classapps : List ClassAppRow
deriving DecidableEq, Repr

/-- The read-only context of one `fetch(program)` call: the program, its
`FormstackAppSettings`, the user store, and the program's class catalog. -/
structure FetchCtx where
  program : Nat
  settings : FormstackAppSettings
  users : List ESPUser
  catalog : List ClassSubject
deriving DecidableEq, Repr

def appKey (a : AppRec) : Nat := a.submission_id
def appVal (a : AppRec) : Nat × Nat := (a.user, a.program)
def appSet (a : AppRec) (v : Nat × Nat) : AppRec :=
  { a with user := v.1, program := v.2 }
def appMk (k : Nat) (v : Nat × Nat) : AppRec :=
  { submission_id := k, user := v.1, program := v.2 }

def caKey (c : ClassAppRow) : Nat × Nat := (c.app, c.student_preference)
def caVal (c : ClassAppRow) : Nat := c.subject
def caSet (c : ClassAppRow) (v : Nat) : ClassAppRow := { c with subject := v }
def caMk (k : Nat × Nat) (v : Nat) : ClassAppRow :=
  { app := k.1, student_preference := k.2, subject := v }

/-- The app upsert of `fetch` (models.py 248-255): get the application by
submission id, or create one; then assign `user` and `program` and save.
`submission_id` is unique (models.py 96), so overwriting every matching row
is the single row `get` returns. -/
def upsertApp (db : List AppRec) (sid userId programId : Nat) : List AppRec :=
  match db.find? (fun a => a.submission_id = sid) with
  | some _ => db.map (fun a =>
      if a.submission_id = sid
      then { a with user := userId, program := programId } else a)
  | none => db ++ [{ submission_id := sid, user := userId,
                     program := programId }]

/-- The class-app upsert of `fetch` (models.py 258-265): get the class
application by `(app, student_preference)` — unique by models.py 194-195 — or
create one; then assign `subject` and save. -/
def upsertClassApp (db : List ClassAppRow) (appSid pref subjId : Nat) :
    List ClassAppRow :=
  match db.find? (fun c => (c.app, c.student_preference) = (appSid, pref)) with
  | some _ => db.map (fun c =>
      if (c.app, c.student_preference) = (appSid, pref)
      then { c with subject := subjId } else c)
  | none => db ++ [{ app := appSid, student_preference := pref,
                     subject := subjId }]

/-- The `for preference, subject in choices.items()` loop of one submission
(models.py 258-265): ranks whose resolved subject is `None` are skipped. -/
def applyChoices (db : List ClassAppRow) (appSid : Nat)
    (choices : List (Nat × Option ClassSubject)) : List ClassAppRow :=
  choices.foldl (fun d pc =>
    match pc.2 with
    | none => d
    | some subj => upsertClassApp d appSid pc.1 subj.id) db

/-- The body of `fetch`'s per-submission loop (models.py 231-266): build the
data dict, resolve the user (skip the submission when there is none), resolve
the three core-class choices with `get_subject` (any raise aborts the loop),
then upsert the application and its class applications. -/
def stepSubmission (ctx : FetchCtx) (db : FDB) (sub : Submission) :
    Except PyError FDB :=
  match lookupUser ctx.users
      (dataDictGet sub.data ctx.settings.username_field) with
  | none => .ok db
  | some user =>
    match get_subject ctx.catalog
        (dataDictGet sub.data ctx.settings.coreclass1_field) with
    | .error e => .error e
    | .ok c1 =>
      match get_subject ctx.catalog
          (dataDictGet sub.data ctx.settings.coreclass2_field) with
      | .error e => .error e
      | .ok c2 =>
        match get_subject ctx.catalog
            (dataDictGet sub.data ctx.settings.coreclass3_field) with
        | .error e => .error e
        | .ok c3 =>
          .ok { apps := upsertApp db.apps sub.id user.id ctx.program,
                classapps := applyChoices db.classapps sub.id
                  [(1, c1), (2, c2), (3, c3)] }

/-- The per-submission loop of `fetch` (models.py 231-266), submissions in
listing order; an uncaught exception aborts the loop. -/
def fetchLoop (ctx : FetchCtx) (db : FDB) :
    List Submission → Except PyError FDB
  | [] => .ok db
  | sub :: rest =>
    match stepSubmission ctx db sub with
    | .error e => .error e
    | .ok db1 => fetchLoop ctx db1 rest

/-- `fetch` at the database level (models.py 229-266): the loop runs inside
`with transaction.commit_on_success():`, so on success the new state is
committed, and on an exception every write of this fetch is rolled back and
the exception propagates. -/
def fetch (ctx : FetchCtx) (db : FDB) (subs : List Submission) :
    FDB × Except PyError Unit :=
  match fetchLoop ctx db subs with
  | .ok db1 => (db1, .ok ())
  | .error e => (db, .error e)

/-! ### Factoring the loop into keyed writes

What `fetch` writes is determined by the submissions and the read-only
context alone: each submission either errors, is skipped, or contributes one
app write and up to three class-app writes.  The loop then equals applying
those write lists through the generic store, which yields idempotence. -/

/-- The writes of one submission of `fetch`'s loop, computed without the
database: `.ok none` when the submission is skipped (unknown user), else the
submission id, the user id, and the `(preference, subject id)` pairs of the
resolved choices. -/
def planSubmission (ctx : FetchCtx) (sub : Submission) :
    Except PyError (Option (Nat × Nat × List (Nat × Nat))) :=
  match lookupUser ctx.users
      (dataDictGet sub.data ctx.settings.username_field) with
  | none => .ok none
  | some user =>
    match get_subject ctx.catalog
        (dataDictGet sub.data ctx.settings.coreclass1_field) with
    | .error e => .error e
    | .ok c1 =>
      match get_subject ctx.catalog
          (dataDictGet sub.data ctx.settings.coreclass2_field) with
      | .error e => .error e
      | .ok c2 =>
        match get_subject ctx.catalog
            (dataDictGet sub.data ctx.settings.coreclass3_field) with
        | .error e => .error e
        | .ok c3 =>
          .ok (some (sub.id, user.id,
            ([(1, c1), (2, c2), (3, c3)] :
                List (Nat × Option ClassSubject)).filterMap
              (fun pc => pc.2.map (fun subj => (pc.1, subj.id)))))

/-- Apply the writes of one planned submission to the database. -/
def applyPlan (programId : Nat) (db : FDB) :
    Option (Nat × Nat × List (Nat × Nat)) → FDB
  | none => db
  | some p =>
    { apps := kApply appKey appSet appMk db.apps [(p.1, (p.2.1, programId))],
      classapps := kApply caKey caSet caMk db.classapps
        (p.2.2.map (fun pc => ((p.1, pc.1), pc.2))) }

/-- The plans of all non-skipped submissions, in order; the first raise
aborts. -/
def planWrites (ctx : FetchCtx) :
    List Submission → Except PyError (List (Nat × Nat × List (Nat × Nat)))
  | [] => .ok []
  | sub :: rest =>
    match planSubmission ctx sub with
    | .error e => .error e
    | .ok none => planWrites ctx rest
    | .ok (some p) =>
      match planWrites ctx rest with
      | .error e => .error e
      | .ok ps => .ok (p :: ps)

/-- The app-table writes of a list of plans: key `submission_id`, value
`(user, program)`. -/
def appWritesOf (programId : Nat)
    (ps : List (Nat × Nat × List (Nat × Nat))) : List (Nat × Nat × Nat) :=
  ps.map (fun p => (p.1, p.2.1, programId))

/-- The class-app-table writes of a list of plans: key
`(app submission id, preference)`, value `subject`. -/
def classWritesOf (ps : List (Nat × Nat × List (Nat × Nat))) :
    List ((Nat × Nat) × Nat) :=
  ps.flatMap (fun p => p.2.2.map (fun pc => ((p.1, pc.1), pc.2)))

/-! ## The self-guarding fetch cache
(`FormstackStudentProgramAppManager`, models.py 197-279)

The manager carries a `locked` flag (models.py 198).  `fetch` sets it on
entry (models.py 206) and a `finally:` resets it on every exit
(models.py 268-269).  `get_query_set` (models.py 275-279) — through which
every manager read such as the `self.get(submission_id=...)` of the upsert
step passes — re-fetches every configured program first, unless `locked` is
set.  The mutual recursion is modelled with a `fuel` bound; the theorems show
that along every run the flag makes any positive fuel sufficient: a read
inside a fetch never re-enters `fetch`. -/

/-- The manager state: the `locked` flag, the number of `fetch` invocations
performed so far (an instrumentation counter, not program state), and the
database. -/
structure MgrState where
  locked : Bool
  fetchCount : Nat
  db : FDB
deriving DecidableEq, Repr

/-- The programs configured with the Formstack application module
(`Program.objects.filter(program_modules__handler='FormstackAppModule')`,
models.py 277), each with its upstream submissions. -/
abbrev ProgramEnv := List (FetchCtx × List Submission)

mutual

/-- `get_query_set` (models.py 275-279): when not locked, fetch every
configured program before answering the read; when locked, answer from the
current state without fetching.  Fuel `0` cuts the (never reached) unbounded
recursion off. -/
def getQuerySetM (env : ProgramEnv) : Nat → MgrState → MgrState
  | fuel, s =>
    if s.locked then s
    else
      match fuel with
      | 0 => s
      | fuel' + 1 => fetchAllM env fuel' env s
termination_by fuel s => (fuel, 0, 0)

/-- The `for program in ...: self.fetch(program)` loop of `get_query_set`
(models.py 277-278). -/
def fetchAllM (env : ProgramEnv) (fuel : Nat) :
    List (FetchCtx × List Submission) → MgrState → MgrState
  | [], s => s
  | p :: rest, s => fetchAllM env fuel rest (fetchM env fuel p.1 p.2 s).1
termination_by lst s => (fuel, 3, lst.length)

/-- `fetch` with its guard (models.py 204-271): set `locked`, run the
transactional loop, and reset `locked` in the `finally:` on both the commit
and the rollback path. -/
def fetchM (env : ProgramEnv) (fuel : Nat) (ctx : FetchCtx)
    (subs : List Submission) (s : MgrState) :
    MgrState × Except PyError Unit :=
  match fetchLoopM env fuel ctx
      { s with locked := true, fetchCount := s.fetchCount + 1 } subs with
  | (s2, .ok _) => ({ s2 with locked := false }, .ok ())
  | (s2, .error e) => ({ s2 with db := s.db, locked := false }, .error e)
termination_by (fuel, 2, 0)

/-- The per-submission loop of `fetch`, with the manager read of the upsert
step (`self.get(submission_id=...)`, models.py 250, which goes through
`get_query_set`) made explicit before the write. -/
def fetchLoopM (env : ProgramEnv) (fuel : Nat) (ctx : FetchCtx) :
    MgrState → List Submission → MgrState × Except PyError Unit
  | s, [] => (s, .ok ())
  | s, sub :: rest =>
    let s0 := getQuerySetM env fuel s
    match stepSubmission ctx s0.db sub with
    | .error e => (s0, .error e)
    | .ok db1 => fetchLoopM env fuel ctx { s0 with db := db1 } rest
termination_by s subs => (fuel, 1, subs.length)

end

/-! ### Helper lemmas for the state machine -/

/-- `doAdmit` as a single pass over the table: the receiver row ends admitted,
every other row of the same application ends unassigned, all else unchanged. -/
theorem doAdmit_eq_map (db : List StudentClassApp) (s : StudentClassApp) :
    doAdmit db s = db.map fun r =>
      if r.id = s.id then { r with admission_status := ADMITTED }
      else if r.app = s.app then { r with admission_status := UNASSIGNED }
      else r := by
  unfold doAdmit
  rw [List.map_map]
  refine List.map_congr_left fun r _ => ?_
  by_cases hid : r.id = s.id <;> by_cases happ : r.app = s.app <;>
    simp [Function.comp, hid, happ]

/-- In a table whose primary keys are pairwise distinct, filtering on the key
of a member row returns exactly that row. -/
theorem filter_key_eq_singleton (db : List StudentClassApp)
    (s : StudentClassApp) (hmem : s ∈ db) (hid : (db.map (·.id)).Nodup) :
    db.filter (fun r => r.id = s.id) = [s] := by
  induction db with
  | nil => cases hmem
  | cons a t ih =>
    rw [List.map_cons, List.nodup_cons] at hid
    rcases List.mem_cons.mp hmem with rfl | hmem'
    · have ht : t.filter (fun r => r.id = s.id) = [] := by
        refine List.filter_eq_nil_iff.mpr fun r hr => ?_
        simp only [decide_eq_true_eq]
        intro h
        exact hid.1 (h ▸ List.mem_map_of_mem (·.id) hr)
      simp [List.filter_cons, ht]
    · have hne : ¬ (a.id = s.id) := fun h => by
        exact hid.1 (h ▸ List.mem_map_of_mem (·.id) hmem')
      simp only [List.filter_cons, decide_eq_true_eq]
      rw [if_neg hne]
      exact ih hmem' hid.2

/-- A member row with the key of another member row is that row, when the
primary keys of the table are pairwise distinct. -/
theorem eq_of_mem_of_id_eq {db : List StudentClassApp}
    {r s : StudentClassApp} (hr : r ∈ db) (hs : s ∈ db)
    (hid : (db.map (·.id)).Nodup) (h : r.id = s.id) : r = s := by
  have : r ∈ db.filter (fun r => r.id = s.id) :=
    List.mem_filter.mpr ⟨hr, decide_eq_true h⟩
  rw [filter_key_eq_singleton db s hs hid] at this
  exact List.mem_singleton.mp this

/-- C1: after `admit()` on a class application `s`, `s` is the unique admitted
class application of its program application, every sibling is unassigned,
admitted sets of other program applications are unchanged, and re-running
`admit()` (in particular on the already-admitted row) is a no-op. -/
theorem admit_at_most_one_admitted (db : List StudentClassApp)
    (s : StudentClassApp) (hmem : s ∈ db)
    (hid : (db.map (·.id)).Nodup) :
    (doAdmit db s).filter
        (fun r => r.app = s.app ∧ r.admission_status = ADMITTED)
      = [{ s with admission_status := ADMITTED }]
    ∧ (∀ r ∈ doAdmit db s, r.app = s.app → r.id ≠ s.id →
        r.admission_status = UNASSIGNED)
    ∧ (∀ a, a ≠ s.app →
        (doAdmit db s).filter
            (fun r => r.app = a ∧ r.admission_status = ADMITTED)
          = db.filter (fun r => r.app = a ∧ r.admission_status = ADMITTED))
    ∧ doAdmit (doAdmit db s) s = doAdmit db s := by
  refine ⟨?_, ?_, ?_, ?_⟩
  · rw [doAdmit_eq_map, List.filter_map]
    have hf : db.filter
        ((fun r => decide (r.app = s.app ∧ r.admission_status = ADMITTED)) ∘
          (fun r =>
            if r.id = s.id then { r with admission_status := ADMITTED }
            else if r.app = s.app then { r with admission_status := UNASSIGNED }
            else r))
        = db.filter (fun r => r.id = s.id) := by
      refine List.filter_congr fun r hr => ?_
      simp only [Function.comp_apply]
      by_cases hidr : r.id = s.id
      · have hrs : r = s := eq_of_mem_of_id_eq hr hmem hid hidr
        rw [if_pos hidr, hrs]
        simp
      · by_cases happ : r.app = s.app
        · rw [if_neg hidr, if_pos happ]
          simp [hidr, UNASSIGNED, ADMITTED]
        · rw [if_neg hidr, if_neg happ]
          simp [hidr, happ]
    rw [hf, filter_key_eq_singleton db s hmem hid]
    simp
  · intro r hr happ hidr
    rw [doAdmit_eq_map] at hr
    rcases List.mem_map.mp hr with ⟨r0, _, rfl⟩
    by_cases h0 : r0.id = s.id
    · rw [if_pos h0] at hidr ⊢
      exact absurd h0 (by simpa using hidr)
    · by_cases h1 : r0.app = s.app
      · rw [if_neg h0, if_pos h1]
      · rw [if_neg h0, if_neg h1] at happ
        exact absurd happ h1
  · intro a ha
    rw [doAdmit_eq_map, List.filter_map]
    have hf : db.filter
        ((fun r => decide (r.app = a ∧ r.admission_status = ADMITTED)) ∘
          (fun r =>
            if r.id = s.id then { r with admission_status := ADMITTED }
            else if r.app = s.app then { r with admission_status := UNASSIGNED }
            else r))
        = db.filter (fun r => r.app = a ∧ r.admission_status = ADMITTED) := by
      refine List.filter_congr fun r hr => ?_
      simp only [Function.comp_apply]
      by_cases hidr : r.id = s.id
      · have hrs : r = s := eq_of_mem_of_id_eq hr hmem hid hidr
        have hra : ¬ (r.app = a) := by
          rw [hrs]; exact fun h => ha h.symm
        rw [if_pos hidr]
        simp [hra]
      · by_cases happ : r.app = s.app
        · have hra : ¬ (r.app = a) := by
            rw [happ]; exact fun h => ha h.symm
          rw [if_neg hidr, if_pos happ]
          simp [hra]
        · rw [if_neg hidr, if_neg happ]
    rw [hf]
    have hmapid : ∀ r ∈ db.filter
        (fun r => r.app = a ∧ r.admission_status = ADMITTED),
        (if r.id = s.id then { r with admission_status := ADMITTED }
         else if r.app = s.app then { r with admission_status := UNASSIGNED }
         else r) = id r := by
      intro r hr
      rcases List.mem_filter.mp hr with ⟨hrdb, hp⟩
      rcases of_decide_eq_true hp with ⟨h1, _⟩
      have hidr : ¬ (r.id = s.id) := fun h => by
        have hrs : r = s := eq_of_mem_of_id_eq hrdb hmem hid h
        exact ha (by rw [← h1, hrs])
      have happ : ¬ (r.app = s.app) := fun h =>
        ha (by rw [← h1]; exact h)
      rw [if_neg hidr, if_neg happ]
      rfl
    rw [List.map_congr_left hmapid, List.map_id]
  · rw [doAdmit_eq_map, doAdmit_eq_map, List.map_map]
    refine List.map_congr_left fun r _ => ?_
    simp only [Function.comp_apply]
    by_cases hidr : r.id = s.id
    · rw [if_pos hidr, if_pos hidr]
    · by_cases happ : r.app = s.app
      · rw [if_neg hidr, if_pos happ, if_neg hidr, if_pos happ]
      · rw [if_neg hidr, if_neg happ, if_neg hidr, if_neg happ]

/-- Witness for C1 on a concrete two-row table: admitting preference 2 of app 0
leaves exactly that row admitted and is idempotent. -/
theorem admit_at_most_one_admitted_witness :
    (doAdmit [⟨1, 0, 7, 1, ADMITTED⟩, ⟨2, 0, 9, 2, UNASSIGNED⟩]
        ⟨2, 0, 9, 2, UNASSIGNED⟩).filter
        (fun r => r.app = 0 ∧ r.admission_status = ADMITTED)
      = [⟨2, 0, 9, 2, ADMITTED⟩] := by
  have h := admit_at_most_one_admitted
    [⟨1, 0, 7, 1, ADMITTED⟩, ⟨2, 0, 9, 2, UNASSIGNED⟩]
    ⟨2, 0, 9, 2, UNASSIGNED⟩ (by decide) (by decide)
  exact h.1

/-- C9: under the at-most-one-admitted invariant, `admitted_to_class` never
hits its assertion; it returns `None` when no class application of the program
application is admitted, and the subject of the admitted one otherwise. -/
theorem admitted_to_class_sound (db : List StudentClassApp) (appId : Nat)
    (hinv : (db.filter (isAdmittedFor appId)).length ≤ 1) :
    (∀ e, admitted_to_class db appId ≠ .error e)
    ∧ ((∀ r ∈ db, ¬(r.app = appId ∧ r.admission_status = ADMITTED)) →
        admitted_to_class db appId = .ok none)
    ∧ (∀ r ∈ db, r.app = appId → r.admission_status = ADMITTED →
        admitted_to_class db appId = .ok (some r.subject)) := by
  unfold admitted_to_class
  refine ⟨?_, ?_, ?_⟩
  · intro e
    rcases h : db.filter (isAdmittedFor appId) with _ | ⟨r, _ | ⟨r', t⟩⟩
    · simp [h]
    · simp [h]
    · rw [h] at hinv
      simp at hinv
  · intro hnone
    have h : db.filter (isAdmittedFor appId) = [] :=
      List.filter_eq_nil_iff.mpr fun r hr => by
        simpa [isAdmittedFor] using hnone r hr
    simp [h]
  · intro r hr h1 h2
    have hrf : r ∈ db.filter (isAdmittedFor appId) :=
      List.mem_filter.mpr ⟨hr, by simp [isAdmittedFor, h1, h2]⟩
    rcases h : db.filter (isAdmittedFor appId) with _ | ⟨r0, _ | ⟨r', t⟩⟩
    · rw [h] at hrf; cases hrf
    · rw [h] at hrf
      have : r = r0 := List.mem_singleton.mp hrf
      simp [this]
    · rw [h] at hinv
      simp at hinv

/-- Witness for C9: a table satisfying the invariant where app 0 is admitted
to subject 9. -/
theorem admitted_to_class_sound_witness :
    admitted_to_class
        [⟨1, 0, 7, 1, UNASSIGNED⟩, ⟨2, 0, 9, 2, ADMITTED⟩] 0
      = .ok (some 9) := by
  have h := admitted_to_class_sound
    [⟨1, 0, 7, 1, UNASSIGNED⟩, ⟨2, 0, 9, 2, ADMITTED⟩] 0 (by decide)
  exact h.2.2 ⟨2, 0, 9, 2, ADMITTED⟩ (by decide) rfl rfl

/-- C10: `unadmit()` and `waitlist()` rewrite only the admission status of the
row they are called on — every other row, and every other column of the target
row, is unchanged — and, unlike `admit()`, `waitlist()` leaves siblings alone,
so two siblings can be waitlisted at once. -/
theorem unadmit_waitlist_frame :
    (∀ (db : List StudentClassApp) (s : StudentClassApp) (i : Nat),
        (unassignSelf db s)[i]? = db[i]?.map fun r =>
          if r.id = s.id then { r with admission_status := UNASSIGNED } else r)
    ∧ (∀ (db : List StudentClassApp) (s : StudentClassApp) (i : Nat),
        (doWaitlist db s)[i]? = db[i]?.map fun r =>
          if r.id = s.id then { r with admission_status := WAITLIST } else r)
    ∧ waitlisted_to_class
        (doWaitlist
          (doWaitlist [⟨1, 0, 7, 1, UNASSIGNED⟩, ⟨2, 0, 9, 2, UNASSIGNED⟩]
            ⟨1, 0, 7, 1, UNASSIGNED⟩)
          ⟨2, 0, 9, 2, UNASSIGNED⟩) 0 = [7, 9] := by
  refine ⟨?_, ?_, by decide⟩
  · intro db s i
    unfold unassignSelf
    rw [List.getElem?_map]
  · intro db s i
    unfold doWaitlist
    rw [List.getElem?_map]

/-- C7: `get_subject` returns `None` on `None`; on `"<id>|<text>"` whose left
part parses as an integer naming a catalog subject it returns that subject,
ignoring the display text; and when the left part does not parse as an integer
it returns the first catalog subject whose friendly name equals the trimmed
left part (`None` if there is none). -/
theorem get_subject_spec :
    (∀ catalog, get_subject catalog none = .ok none)
    ∧ (∀ catalog (s : String) (i : Int) (c : ClassSubject),
        pyInt (pyPartitionFst s) = some i →
        catalog.find? (fun c0 => (c0.id : Int) = i) = some c →
        get_subject catalog (some s) = .ok (some c))
    ∧ (∀ catalog (s : String),
        pyInt (pyPartitionFst s) = none →
        get_subject catalog (some s) =
          .ok ((catalog.filter
            (fun c => c.friendly_name = pyStrip (pyPartitionFst s))).head?)) := by
  refine ⟨fun _ => rfl, ?_, ?_⟩
  · intro catalog s i c hparse hfind
    simp only [get_subject, hparse, hfind]
  · intro catalog s hparse
    simp only [get_subject, hparse]
    rcases h : catalog.filter
        (fun c => c.friendly_name = pyStrip (pyPartitionFst s)) with _ | ⟨c, t⟩
    · simp [h]
    · simp [h]

/-- Witness for C7: all three branches on a concrete catalog.  The numeric
branch ignores the display text (`"7|Intro to Biology"` resolves to subject 7
whose stored title is `"Algebra"`), and the title branch matches the trimmed
left part of `" Geometry "`. -/
theorem get_subject_spec_witness :
    get_subject [⟨7, "Algebra"⟩, ⟨9, "Geometry"⟩] none = .ok none
    ∧ get_subject [⟨7, "Algebra"⟩, ⟨9, "Geometry"⟩] (some "7|Intro to Biology")
        = .ok (some ⟨7, "Algebra"⟩)
    ∧ get_subject [⟨7, "Algebra"⟩, ⟨9, "Geometry"⟩] (some " Geometry ")
        = .ok (some ⟨9, "Geometry"⟩) :=
  ⟨get_subject_spec.1 _,
   get_subject_spec.2.1 _ "7|Intro to Biology" 7 ⟨7, "Algebra"⟩ rfl rfl,
   get_subject_spec.2.2 _ " Geometry " rfl⟩

/-- C2 (code bug): when the left part parses as an integer but no subject with
that id exists, the specified title fallback never runs: the Python 2 clause
`except ValueError, ClassSubject.DoesNotExist:` catches only `ValueError`, so
`get_subject` raises `ClassSubject.DoesNotExist` instead of degrading to
`None`.  Here `"9999|Bogus"` against a catalog that even contains a subject
titled `"9999"` (so the specified fallback would have returned it) errors. -/
theorem get_subject_missing_id_raises :
    get_subject [⟨7, "9999"⟩] (some "9999|Bogus") = .error .DoesNotExist
    ∧ get_subject [] (some "9999|Bogus") = .error .DoesNotExist :=
  ⟨rfl, rfl⟩

/-- C8: when every response field id has a label, `get_responses` returns one
`(label, value)` pair per data entry, in submission-data order; when some
response field id is absent from the field metadata it raises `KeyError`
rather than skipping the entry. -/
theorem get_responses_spec (field_info : List FieldInfo)
    (data : List ResponseEntry) :
    ((∀ e ∈ data, (idToLabel field_info e.field).isSome = true) →
      ∃ result, get_responses field_info data = .ok result
        ∧ result.length = data.length
        ∧ ∀ (i : Nat) (e : ResponseEntry), data[i]? = some e →
            ∃ lab, idToLabel field_info e.field = some lab
              ∧ result[i]? = some (lab, e.value))
    ∧ ((∃ e ∈ data, idToLabel field_info e.field = none) →
      get_responses field_info data = .error .KeyError) := by
  constructor
  · intro hall
    induction data with
    | nil =>
      exact ⟨[], rfl, rfl, fun i e h => by cases h⟩
    | cons e rest ih =>
      have he : (idToLabel field_info e.field).isSome = true :=
        hall e (List.mem_cons_self e rest)
      rcases Option.isSome_iff_exists.mp he with ⟨lab, hlab⟩
      rcases ih (fun x hx => hall x (List.mem_cons_of_mem e hx)) with
        ⟨result, hok, hlen, hpt⟩
      refine ⟨(lab, e.value) :: result, ?_, by simp [hlen], ?_⟩
      · simp only [get_responses, hlab, hok]
      · intro i e0 h
        match i with
        | 0 =>
          simp only [List.getElem?_cons_zero, Option.some.injEq] at h
          exact ⟨lab, h ▸ hlab, by simp [← h]⟩
        | i + 1 =>
          simp only [List.getElem?_cons_succ] at h ⊢
          exact hpt i e0 h
  · intro hbad
    induction data with
    | nil => simp at hbad
    | cons e rest ih =>
      rcases hbad with ⟨e0, he0, hnone⟩
      rcases List.mem_cons.mp he0 with rfl | hmem
      · simp only [get_responses, hnone]
      · rcases h : idToLabel field_info e.field with _ | lab
        · simp only [get_responses, h]
        · have := ih ⟨e0, hmem, hnone⟩
          simp only [get_responses, h, this]

/-- Witness for C8: both branches on concrete metadata.  Field 2 is labelled
twice; the later label wins, matching the Python dict comprehension. -/
theorem get_responses_spec_witness :
    get_responses [⟨1, "Name"⟩, ⟨2, "Old"⟩, ⟨2, "Class"⟩]
        [⟨2, "Algebra"⟩, ⟨1, "alice"⟩] = .ok [("Class", "Algebra"), ("Name", "alice")]
    ∧ get_responses [⟨1, "Name"⟩] [⟨1, "alice"⟩, ⟨3, "stray"⟩]
        = .error .KeyError := by
  constructor
  · rcases (get_responses_spec [⟨1, "Name"⟩, ⟨2, "Old"⟩, ⟨2, "Class"⟩]
        [⟨2, "Algebra"⟩, ⟨1, "alice"⟩]).1 (by decide) with ⟨result, hok, hlen, hpt⟩
    rcases hpt 0 ⟨2, "Algebra"⟩ rfl with ⟨lab0, hlab0, h0⟩
    rcases hpt 1 ⟨1, "alice"⟩ rfl with ⟨lab1, hlab1, h1⟩
    have hlab0' : lab0 = "Class" := by
      have : some lab0 = some "Class" := by rw [← hlab0]; rfl
      exact Option.some.inj this
    have hlab1' : lab1 = "Name" := by
      have : some lab1 = some "Name" := by rw [← hlab1]; rfl
      exact Option.some.inj this
    subst hlab0' hlab1'
    rw [hok]
    have : result = [("Class", "Algebra"), ("Name", "alice")] := by
      have h2 : result.length = 2 := by rw [hlen]; rfl
      match result, h2 with
      | [a, b], _ =>
        have ha : some a = some ("Class", "Algebra") := by rw [← h0]; rfl
        have hb : some b = some ("Name", "alice") := by rw [← h1]; rfl
        rw [Option.some.inj ha, Option.some.inj hb]
    rw [this]
  · exact (get_responses_spec [⟨1, "Name"⟩] [⟨1, "alice"⟩, ⟨3, "stray"⟩]).2
      ⟨⟨3, "stray"⟩, by decide, rfl⟩

/-! ### Lemmas about the keyed store -/

section KeyedStore

variable {R K V : Type}
variable [DecidableEq K]
variable (key : R → K) (val : R → V) (set : R → V → R) (mk : K → V → R)

theorem kUpd1_key (hkey_set : ∀ r v, key (set r v) = key r)
    (w : K × V) (r : R) :
    key (kUpd1 key set w r) = key r := by
  unfold kUpd1
  by_cases h : key r = w.1
  · rw [if_pos h, hkey_set]
  · rw [if_neg h]

theorem kChain_eq (hkey_set : ∀ r v, key (set r v) = key r)
    (hset_set : ∀ r v v', set (set r v) v' = set r v')
    (ws : List (K × V)) (r : R) :
    kChain key set ws r =
      match kLastVal ws (key r) with
      | some v => set r v
      | none => r := by
  induction ws generalizing r with
  | nil => rfl
  | cons w t ih =>
    have hcons : kChain key set (w :: t) r
        = kChain key set t (kUpd1 key set w r) := rfl
    rw [hcons]
    unfold kUpd1
    by_cases hw : key r = w.1
    · rw [if_pos hw, ih, hkey_set]
      rcases h : kLastVal t (key r) with _ | v
      · simp only [kLastVal, h, hw.symm, if_pos]
      · simp only [kLastVal, h, hset_set]
    · rw [if_neg hw, ih]
      rcases h : kLastVal t (key r) with _ | v
      · simp only [kLastVal, h]
        rw [if_neg (fun hh => hw hh.symm)]
      · simp only [kLastVal, h]

theorem kHasKey_kUpsert_self (hkey_set : ∀ r v, key (set r v) = key r)
    (hkey_mk : ∀ k v, key (mk k v) = k)
    (db : List R) (k : K) (v : V) :
    kHasKey key (kUpsert key set mk db k v) k = true := by
  unfold kUpsert
  rcases h : db.find? (fun r => key r = k) with _ | r
  · unfold kHasKey
    rw [List.any_append]
    simp [hkey_mk]
  · have hr := List.find?_some h
    have hrm := List.mem_of_find?_eq_some h
    refine List.any_eq_true.mpr ⟨(if key r = k then set r v else r),
      List.mem_map_of_mem _ hrm, ?_⟩
    have hkr : key r = k := of_decide_eq_true hr
    rw [if_pos hkr]
    simp [hkey_set, hkr]

theorem kHasKey_kUpsert_mono (hkey_set : ∀ r v, key (set r v) = key r)
    (db : List R) (k k' : K) (v : V)
    (h : kHasKey key db k' = true) :
    kHasKey key (kUpsert key set mk db k v) k' = true := by
  rcases List.any_eq_true.mp h with ⟨r, hrm, hrk⟩
  unfold kUpsert
  rcases hf : db.find? (fun r => key r = k) with _ | r0
  · exact List.any_eq_true.mpr ⟨r, List.mem_append_left _ hrm, hrk⟩
  · refine List.any_eq_true.mpr ⟨(if key r = k then set r v else r),
      List.mem_map_of_mem _ hrm, ?_⟩
    by_cases hk : key r = k
    · rw [if_pos hk]
      simp only [hkey_set]
      exact hrk
    · rw [if_neg hk]
      exact hrk

theorem kUpsert_of_hasKey (db : List R) (k : K) (v : V)
    (h : kHasKey key db k = true) :
    kUpsert key set mk db k v = db.map (kUpd1 key set (k, v)) := by
  unfold kUpsert
  rcases hf : db.find? (fun r => key r = k) with _ | r
  · rcases List.any_eq_true.mp h with ⟨r, hrm, hrk⟩
    have := List.find?_eq_none.mp hf r hrm
    exact absurd hrk this
  · rfl

theorem kHasKey_map (db : List R) (f : R → R) (k : K)
    (hf : ∀ r, key (f r) = key r) :
    kHasKey key (db.map f) k = kHasKey key db k := by
  unfold kHasKey
  rw [List.any_map]
  refine congrArg _ (funext fun r => ?_)
  simp [Function.comp, hf]

theorem kApply_of_hasKey (hkey_set : ∀ r v, key (set r v) = key r)
    (ws : List (K × V)) :
    ∀ db : List R, (∀ w ∈ ws, kHasKey key db w.1 = true) →
      kApply key set mk db ws = db.map (kChain key set ws) := by
  induction ws with
  | nil =>
    intro db _
    simp only [kApply, List.foldl_nil]
    have h0 : List.map (kChain key set []) db = List.map (fun a => a) db :=
      List.map_congr_left (fun r _ => rfl)
    rw [h0, List.map_id']
  | cons w t ih =>
    intro db h
    have h1 : kHasKey key db w.1 = true := h w (List.mem_cons_self w t)
    have hstep : kApply key set mk db (w :: t)
        = kApply key set mk (kUpsert key set mk db w.1 w.2) t := rfl
    rw [hstep, kUpsert_of_hasKey key set mk db w.1 w.2 h1]
    have h2 : ∀ w' ∈ t,
        kHasKey key (db.map (kUpd1 key set (w.1, w.2))) w'.1 = true := by
      intro w' hw'
      rw [kHasKey_map key db _ _ (kUpd1_key key set hkey_set (w.1, w.2))]
      exact h w' (List.mem_cons_of_mem w hw')
    rw [ih _ h2, List.map_map]
    refine List.map_congr_left fun r _ => ?_
    rfl

theorem kApply_hasKey_mono (hkey_set : ∀ r v, key (set r v) = key r)
    (ws : List (K × V)) :
    ∀ (db : List R) (k : K), kHasKey key db k = true →
      kHasKey key (kApply key set mk db ws) k = true := by
  induction ws with
  | nil => intro db k h; exact h
  | cons w t ih =>
    intro db k h
    exact ih _ k (kHasKey_kUpsert_mono key set mk hkey_set db w.1 k w.2 h)

theorem kApply_hasKey_of_mem (hkey_set : ∀ r v, key (set r v) = key r)
    (hkey_mk : ∀ k v, key (mk k v) = k)
    (ws : List (K × V)) :
    ∀ (db : List R) (w : K × V), w ∈ ws →
      kHasKey key (kApply key set mk db ws) w.1 = true := by
  induction ws with
  | nil => intro db w hw; cases hw
  | cons w0 t ih =>
    intro db w hw
    rcases List.mem_cons.mp hw with rfl | hmem
    · exact kApply_hasKey_mono key set mk hkey_set t _ w.1
        (kHasKey_kUpsert_self key set mk hkey_set hkey_mk db w.1 w.2)
    · exact ih _ w hmem

theorem kLastVal_none (ws : List (K × V)) (k : K)
    (h : kLastVal ws k = none) : ∀ w ∈ ws, w.1 ≠ k := by
  induction ws with
  | nil => intro w hw; cases hw
  | cons w0 t ih =>
    simp only [kLastVal] at h
    rcases h2 : kLastVal t k with _ | v
    · rw [h2] at h
      intro w hw
      rcases List.mem_cons.mp hw with rfl | hmem
      · intro hk
        rw [if_pos hk] at h
        cases h
      · exact ih h2 w hmem
    · rw [h2] at h
      cases h

theorem mem_of_kApply_unwritten (hkey_set : ∀ r v, key (set r v) = key r)
    (hkey_mk : ∀ k v, key (mk k v) = k)
    (ws : List (K × V)) :
    ∀ (db : List R) (r : R), r ∈ kApply key set mk db ws →
      (∀ w ∈ ws, w.1 ≠ key r) → r ∈ db := by
  induction ws with
  | nil => intro db r hr _; exact hr
  | cons w t ih =>
    intro db r hr h
    have hr1 : r ∈ kUpsert key set mk db w.1 w.2 :=
      ih _ r hr (fun w' hw' => h w' (List.mem_cons_of_mem w hw'))
    unfold kUpsert at hr1
    rcases hf : db.find? (fun r0 => key r0 = w.1) with _ | r0
    · simp only [hf] at hr1
      rcases List.mem_append.mp hr1 with hd | hone
      · exact hd
      · exfalso
        apply h w (List.mem_cons_self w t)
        rw [List.mem_singleton.mp hone, hkey_mk]
    · simp only [hf] at hr1
      rcases List.mem_map.mp hr1 with ⟨r1, hr1m, heq⟩
      by_cases hk : key r1 = w.1
      · exfalso
        apply h w (List.mem_cons_self w t)
        have hkr : key r = w.1 := by
          rw [← heq, if_pos hk, hkey_set, hk]
        rw [hkr]
      · rw [← heq, if_neg hk]
        exact hr1m

theorem val_of_mem_kUpsert (hval_set : ∀ r v, val (set r v) = v)
    (hval_mk : ∀ k v, val (mk k v) = v)
    (db : List R) (k : K) (v : V) (r : R)
    (hr : r ∈ kUpsert key set mk db k v) (hk : key r = k) :
    val r = v := by
  unfold kUpsert at hr
  rcases hf : db.find? (fun r0 => key r0 = k) with _ | r0
  · simp only [hf] at hr
    rcases List.mem_append.mp hr with hd | hone
    · have := List.find?_eq_none.mp hf r hd
      exact absurd (decide_eq_true hk) this
    · rw [List.mem_singleton.mp hone, hval_mk]
  · simp only [hf] at hr
    rcases List.mem_map.mp hr with ⟨r1, hr1m, heq⟩
    by_cases hk1 : key r1 = k
    · rw [← heq, if_pos hk1, hval_set]
    · exfalso
      rw [← heq, if_neg hk1] at hk
      exact hk1 hk

theorem val_of_kApply_lastVal (hkey_set : ∀ r v, key (set r v) = key r)
    (hval_set : ∀ r v, val (set r v) = v)
    (hkey_mk : ∀ k v, key (mk k v) = k)
    (hval_mk : ∀ k v, val (mk k v) = v)
    (ws : List (K × V)) :
    ∀ (db : List R) (r : R) (v : V), r ∈ kApply key set mk db ws →
      kLastVal ws (key r) = some v → val r = v := by
  induction ws with
  | nil => intro db r v _ hlast; cases hlast
  | cons w t ih =>
    intro db r v hr hlast
    simp only [kLastVal] at hlast
    rcases h2 : kLastVal t (key r) with _ | v'
    · rw [h2] at hlast
      by_cases hw : w.1 = key r
      · rw [if_pos hw] at hlast
        have hv : v = w.2 := (Option.some.inj hlast).symm
        have hrm : r ∈ kUpsert key set mk db w.1 w.2 :=
          mem_of_kApply_unwritten key set mk hkey_set hkey_mk t _ r hr
            (kLastVal_none t (key r) h2)
        rw [hv]
        exact val_of_mem_kUpsert key val set mk hval_set hval_mk
          db w.1 w.2 r hrm hw.symm
      · rw [if_neg hw] at hlast
        cases hlast
    · rw [h2] at hlast
      have hv : v = v' := (Option.some.inj hlast).symm
      rw [hv]
      exact ih _ r v' hr h2

/-- Replaying the same write list over its own result changes nothing: every
written key is present afterwards, so the second pass creates no rows, and
every row already carries the last written value for its key. -/
theorem kApply_replay (hkey_set : ∀ r v, key (set r v) = key r)
    (hval_set : ∀ r v, val (set r v) = v)
    (hset_val : ∀ r, set r (val r) = r)
    (hset_set : ∀ r v v', set (set r v) v' = set r v')
    (hkey_mk : ∀ k v, key (mk k v) = k)
    (hval_mk : ∀ k v, val (mk k v) = v)
    (db : List R) (ws : List (K × V)) :
    kApply key set mk (kApply key set mk db ws) ws
      = kApply key set mk db ws := by
  have hpres : ∀ w ∈ ws, kHasKey key (kApply key set mk db ws) w.1 = true :=
    fun w hw => kApply_hasKey_of_mem key set mk hkey_set hkey_mk ws db w hw
  rw [kApply_of_hasKey key set mk hkey_set ws _ hpres]
  have hfix : ∀ r ∈ kApply key set mk db ws, kChain key set ws r = r := by
    intro r hr
    rw [kChain_eq key set hkey_set hset_set ws r]
    rcases h : kLastVal ws (key r) with _ | v
    · rfl
    · have hv : val r = v :=
        val_of_kApply_lastVal key val set mk hkey_set hval_set hkey_mk
          hval_mk ws _ r v hr h
      rw [← hv]
      exact hset_val r
  rw [List.map_congr_left hfix, List.map_id']

end KeyedStore

/-- The concrete app upsert is the generic store upsert at key
`submission_id` and value `(user, program)`. -/
theorem upsertApp_eq (db : List AppRec) (sid u p : Nat) :
    upsertApp db sid u p = kUpsert appKey appSet appMk db sid (u, p) := by
  unfold upsertApp kUpsert appKey appSet appMk
  rcases hf : db.find? (fun a => a.submission_id = sid) with _ | r <;>
    rw [hf] <;> rfl

/-- The concrete class-app upsert is the generic store upsert at key
`(app, student_preference)` and value `subject`. -/
theorem upsertClassApp_eq (db : List ClassAppRow) (a pref subj : Nat) :
    upsertClassApp db a pref subj
      = kUpsert caKey caSet caMk db (a, pref) subj := by
  unfold upsertClassApp kUpsert caKey caSet caMk
  rcases hf : db.find?
      (fun c => (c.app, c.student_preference) = (a, pref)) with _ | r <;>
    rw [hf] <;> rfl

/-- The choice loop of one submission equals applying its keyed writes. -/
theorem applyChoices_eq (sid : Nat) :
    ∀ (choices : List (Nat × Option ClassSubject)) (db : List ClassAppRow),
    applyChoices db sid choices
      = kApply caKey caSet caMk db
          (choices.filterMap
            (fun pc => pc.2.map (fun subj => ((sid, pc.1), subj.id)))) := by
  intro choices
  induction choices with
  | nil => intro db; rfl
  | cons pc t ih =>
    intro db
    rcases pc with ⟨pref, _ | subj⟩
    · have h1 : applyChoices db sid ((pref, none) :: t)
          = applyChoices db sid t := rfl
      rw [h1, ih]
      rfl
    · have h1 : applyChoices db sid ((pref, some subj) :: t)
          = applyChoices (upsertClassApp db sid pref subj.id) sid t := rfl
      rw [h1, ih, upsertClassApp_eq]
      rfl

theorem stepSubmission_eq (ctx : FetchCtx) (db : FDB) (sub : Submission) :
    stepSubmission ctx db sub
      = (planSubmission ctx sub).map (applyPlan ctx.program db) := by
  rcases hu : lookupUser ctx.users
      (dataDictGet sub.data ctx.settings.username_field) with _ | user
  · have hL : stepSubmission ctx db sub = .ok db := by
      unfold stepSubmission; rw [hu]
    have hR : planSubmission ctx sub = .ok none := by
      unfold planSubmission; rw [hu]
    rw [hL, hR]
    rfl
  · rcases h1 : get_subject ctx.catalog
        (dataDictGet sub.data ctx.settings.coreclass1_field) with e | c1
    · have hL : stepSubmission ctx db sub = .error e := by
        unfold stepSubmission; rw [hu, h1]
      have hR : planSubmission ctx sub = .error e := by
        unfold planSubmission; rw [hu, h1]
      rw [hL, hR]
      rfl
    · rcases h2 : get_subject ctx.catalog
          (dataDictGet sub.data ctx.settings.coreclass2_field) with e | c2
      · have hL : stepSubmission ctx db sub = .error e := by
          unfold stepSubmission; rw [hu, h1, h2]
        have hR : planSubmission ctx sub = .error e := by
          unfold planSubmission; rw [hu, h1, h2]
        rw [hL, hR]
        rfl
      · rcases h3 : get_subject ctx.catalog
            (dataDictGet sub.data ctx.settings.coreclass3_field) with e | c3
        · have hL : stepSubmission ctx db sub = .error e := by
            unfold stepSubmission; rw [hu, h1, h2, h3]
          have hR : planSubmission ctx sub = .error e := by
            unfold planSubmission; rw [hu, h1, h2, h3]
          rw [hL, hR]
          rfl
        · have hL : stepSubmission ctx db sub = .ok
              { apps := upsertApp db.apps sub.id user.id ctx.program,
                classapps := applyChoices db.classapps sub.id
                  [(1, c1), (2, c2), (3, c3)] } := by
            unfold stepSubmission; rw [hu, h1, h2, h3]
          have hR : planSubmission ctx sub = .ok (some (sub.id, user.id,
              ([(1, c1), (2, c2), (3, c3)] :
                  List (Nat × Option ClassSubject)).filterMap
                (fun pc => pc.2.map (fun subj => (pc.1, subj.id))))) := by
            unfold planSubmission; rw [hu, h1, h2, h3]
          rw [hL, hR, upsertApp_eq, applyChoices_eq]
          rcases c1 with _ | s1 <;> rcases c2 with _ | s2 <;>
            rcases c3 with _ | s3 <;> rfl

theorem fetchLoop_eq (ctx : FetchCtx) :
    ∀ (subs : List Submission) (db : FDB),
    fetchLoop ctx db subs =
      match planWrites ctx subs with
      | .error e => .error e
      | .ok ps => .ok
          { apps := kApply appKey appSet appMk db.apps
              (appWritesOf ctx.program ps),
            classapps := kApply caKey caSet caMk db.classapps
              (classWritesOf ps) } := by
  intro subs
  induction subs with
  | nil => intro db; rfl
  | cons sub rest ih =>
    intro db
    have hstep : fetchLoop ctx db (sub :: rest)
        = match stepSubmission ctx db sub with
          | .error e => .error e
          | .ok db1 => fetchLoop ctx db1 rest := rfl
    rw [hstep, stepSubmission_eq]
    rcases hp : planSubmission ctx sub with e | op
    · simp only [planWrites, hp, Except.map]
    · rcases op with _ | p
      · simp only [planWrites, hp, Except.map]
        exact ih db
      · simp only [planWrites, hp, Except.map]
        rw [ih (applyPlan ctx.program db (some p))]
        rcases hps : planWrites ctx rest with e | ps
        · rfl
        · simp only []
          have happs : kApply appKey appSet appMk
              (applyPlan ctx.program db (some p)).apps
              (appWritesOf ctx.program ps)
              = kApply appKey appSet appMk db.apps
                  (appWritesOf ctx.program (p :: ps)) := rfl
          have hcas : kApply caKey caSet caMk
              (applyPlan ctx.program db (some p)).classapps
              (classWritesOf ps)
              = kApply caKey caSet caMk db.classapps
                  (classWritesOf (p :: ps)) := by
            show kApply caKey caSet caMk
                (kApply caKey caSet caMk db.classapps
                  (p.2.2.map (fun pc => ((p.1, pc.1), pc.2))))
                (classWritesOf ps)
              = kApply caKey caSet caMk db.classapps
                  (classWritesOf (p :: ps))
            have hc : classWritesOf (p :: ps)
                = p.2.2.map (fun pc => ((p.1, pc.1), pc.2))
                    ++ classWritesOf ps := List.flatMap_cons _ _ _
            rw [hc]
            exact (List.foldl_append _ _ _ _).symm
          rw [happs, hcas]

/-- C3: running `fetch` twice over identical upstream submissions gives the
same database and the same outcome as running it once — the second run
creates no rows and changes no field values, because the writes of a run are
determined by the submissions alone, every written key exists after the first
run, and every row already holds the last written value for its key. -/
theorem fetch_idempotent (ctx : FetchCtx) (db : FDB) (subs : List Submission) :
    fetch ctx ((fetch ctx db subs).1) subs = fetch ctx db subs := by
  rcases hp : planWrites ctx subs with e | ps
  · have h1 : fetchLoop ctx db subs = .error e := by
      rw [fetchLoop_eq]; simp only [hp]
    have hfst : (fetch ctx db subs).1 = db := by
      simp only [fetch, h1]
    rw [hfst]
  · have h1 : fetchLoop ctx db subs = .ok
        { apps := kApply appKey appSet appMk db.apps
            (appWritesOf ctx.program ps),
          classapps := kApply caKey caSet caMk db.classapps
            (classWritesOf ps) } := by
      rw [fetchLoop_eq]; simp only [hp]
    have hfst : (fetch ctx db subs).1 =
        { apps := kApply appKey appSet appMk db.apps
            (appWritesOf ctx.program ps),
          classapps := kApply caKey caSet caMk db.classapps
            (classWritesOf ps) } := by
      simp only [fetch, h1]
    have ha : kApply appKey appSet appMk
        (kApply appKey appSet appMk db.apps (appWritesOf ctx.program ps))
        (appWritesOf ctx.program ps)
        = kApply appKey appSet appMk db.apps (appWritesOf ctx.program ps) :=
      kApply_replay appKey appVal appSet appMk
        (fun _ _ => rfl) (fun _ _ => rfl) (fun _ => rfl)
        (fun _ _ _ => rfl) (fun _ _ => rfl) (fun _ _ => rfl)
        db.apps (appWritesOf ctx.program ps)
    have hc : kApply caKey caSet caMk
        (kApply caKey caSet caMk db.classapps (classWritesOf ps))
        (classWritesOf ps)
        = kApply caKey caSet caMk db.classapps (classWritesOf ps) :=
      kApply_replay caKey caVal caSet caMk
        (fun _ _ => rfl) (fun _ _ => rfl) (fun _ => rfl)
        (fun _ _ _ => rfl) (fun _ _ => rfl) (fun _ _ => rfl)
        db.classapps (classWritesOf ps)
    have h2 : fetchLoop ctx
        ({ apps := kApply appKey appSet appMk db.apps
              (appWritesOf ctx.program ps),
           classapps := kApply caKey caSet caMk db.classapps
              (classWritesOf ps) } : FDB) subs
        = .ok
          { apps := kApply appKey appSet appMk db.apps
              (appWritesOf ctx.program ps),
            classapps := kApply caKey caSet caMk db.classapps
              (classWritesOf ps) } := by
      rw [fetchLoop_eq]
      simp only [hp, ha, hc]
    have hf1 : fetch ctx db subs
        = (({ apps := kApply appKey appSet appMk db.apps
                (appWritesOf ctx.program ps),
              classapps := kApply caKey caSet caMk db.classapps
                (classWritesOf ps) } : FDB), .ok ()) := by
      simp only [fetch, h1]
    have hf2 : fetch ctx
        ({ apps := kApply appKey appSet appMk db.apps
              (appWritesOf ctx.program ps),
           classapps := kApply caKey caSet caMk db.classapps
              (classWritesOf ps) } : FDB) subs
        = (({ apps := kApply appKey appSet appMk db.apps
                (appWritesOf ctx.program ps),
              classapps := kApply caKey caSet caMk db.classapps
                (classWritesOf ps) } : FDB), .ok ()) := by
      simp only [fetch, h2]
    rw [hf1]
    exact hf2

/-- C4: when any write-phase failure occurs (the loop raises), the
transaction rolls every upsert of this fetch back: the database is left
exactly as before the call and the error propagates. -/
theorem fetch_rollback (ctx : FetchCtx) (db : FDB) (subs : List Submission)
    (e : PyError) (h : fetchLoop ctx db subs = .error e) :
    fetch ctx db subs = (db, .error e) := by
  simp only [fetch, h]

/-- Witness for C4, the rollback scenario of the spec: five submissions, the
first three fine, the fourth raising `DoesNotExist` inside `get_subject`
(subject id 9999 unknown); the previously committed rows are untouched and no
new row survives. -/
theorem fetch_rollback_witness :
    fetch
      ⟨1, ⟨some 1, some 2, none, none⟩, [⟨10, "alice"⟩, ⟨11, "bob"⟩],
        [⟨7, "Algebra"⟩]⟩
      ⟨[⟨99, 3, 1⟩], [⟨99, 1, 7⟩]⟩
      [⟨101, [⟨1, "alice"⟩, ⟨2, "7|Algebra"⟩]⟩,
       ⟨102, [⟨1, "bob"⟩, ⟨2, "Algebra"⟩]⟩,
       ⟨103, [⟨1, "ghost"⟩]⟩,
       ⟨104, [⟨1, "alice"⟩, ⟨2, "9999|Bogus"⟩]⟩,
       ⟨105, [⟨1, "bob"⟩, ⟨2, "7|Algebra"⟩]⟩]
      = (⟨[⟨99, 3, 1⟩], [⟨99, 1, 7⟩]⟩, .error .DoesNotExist) :=
  fetch_rollback _ _ _ .DoesNotExist rfl

/-- C6: a submission whose username resolves to no local user is skipped
without raising and without touching the database, and the remaining
submissions are processed exactly as if it were absent. -/
theorem fetch_skips_unknown_user (ctx : FetchCtx) (sub : Submission)
    (h : lookupUser ctx.users
      (dataDictGet sub.data ctx.settings.username_field) = none) :
    (∀ db, stepSubmission ctx db sub = .ok db)
    ∧ (∀ (db : FDB) (pre post : List Submission),
        fetchLoop ctx db (pre ++ sub :: post) = fetchLoop ctx db (pre ++ post)) := by
  have hstep : ∀ db, stepSubmission ctx db sub = .ok db := by
    intro db
    unfold stepSubmission
    rw [h]
  refine ⟨hstep, ?_⟩
  intro db pre post
  induction pre generalizing db with
  | nil =>
    simp only [List.nil_append]
    have hcons : fetchLoop ctx db (sub :: post)
        = match stepSubmission ctx db sub with
          | .error e => .error e
          | .ok db1 => fetchLoop ctx db1 post := rfl
    rw [hcons, hstep db]
  | cons p t ih =>
    simp only [List.cons_append]
    have hcons : ∀ rest, fetchLoop ctx db (p :: rest)
        = match stepSubmission ctx db p with
          | .error e => .error e
          | .ok db1 => fetchLoop ctx db1 rest := fun _ => rfl
    rw [hcons, hcons]
    rcases stepSubmission ctx db p with e | db1
    · rfl
    · exact ih db1

/-- Witness for C6: user `"ghost"` is unknown, the submission is skipped and
the (nonempty) database is untouched while the loop goes on. -/
theorem fetch_skips_unknown_user_witness :
    stepSubmission ⟨1, ⟨some 1, none, none, none⟩, [⟨10, "alice"⟩], []⟩
        ⟨[⟨99, 3, 1⟩], []⟩ ⟨5, [⟨1, "ghost"⟩]⟩
      = .ok ⟨[⟨99, 3, 1⟩], []⟩
    ∧ fetchLoop ⟨1, ⟨some 1, none, none, none⟩, [⟨10, "alice"⟩], []⟩
        ⟨[⟨99, 3, 1⟩], []⟩ [⟨5, [⟨1, "ghost"⟩]⟩]
      = .ok ⟨[⟨99, 3, 1⟩], []⟩ := by
  have h := fetch_skips_unknown_user
    ⟨1, ⟨some 1, none, none, none⟩, [⟨10, "alice"⟩], []⟩ ⟨5, [⟨1, "ghost"⟩]⟩ rfl
  exact ⟨h.1 _, by
    have h2 := h.2 ⟨[⟨99, 3, 1⟩], []⟩ [] []
    simpa using h2⟩

theorem getQuerySetM_locked (env : ProgramEnv) (fuel : Nat) (s : MgrState)
    (hs : s.locked = true) : getQuerySetM env fuel s = s := by
  unfold getQuerySetM
  simp [hs]

/-- While the flag is set, the loop performs its reads without fetching: the
flag and the fetch counter are untouched, and the database evolves exactly as
in the unguarded loop. -/
theorem fetchLoopM_spec (env : ProgramEnv) (fuel : Nat) (ctx : FetchCtx) :
    ∀ (subs : List Submission) (s : MgrState), s.locked = true →
      ((fetchLoopM env fuel ctx s subs).1.locked = true
        ∧ (fetchLoopM env fuel ctx s subs).1.fetchCount = s.fetchCount)
      ∧ (∀ db1, fetchLoop ctx s.db subs = .ok db1 →
          fetchLoopM env fuel ctx s subs = ({ s with db := db1 }, .ok ()))
      ∧ (∀ e, fetchLoop ctx s.db subs = .error e →
          (fetchLoopM env fuel ctx s subs).2 = .error e) := by
  intro subs
  induction subs with
  | nil =>
    intro s hs
    have h0 : fetchLoopM env fuel ctx s [] = (s, .ok ()) := by
      simp only [fetchLoopM]
    rw [h0]
    refine ⟨⟨hs, rfl⟩, ?_, ?_⟩
    · intro db1 h
      have hdb : db1 = s.db := (Except.ok.inj h).symm
      rw [hdb]
    · intro e h
      cases h
  | cons sub rest ih =>
    intro s hs
    have hq : getQuerySetM env fuel s = s := getQuerySetM_locked env fuel s hs
    have hunf : fetchLoopM env fuel ctx s (sub :: rest)
        = match stepSubmission ctx s.db sub with
          | .error e => (s, .error e)
          | .ok db1 => fetchLoopM env fuel ctx { s with db := db1 } rest := by
      simp only [fetchLoopM, hq]
    rcases hst : stepSubmission ctx s.db sub with e | db1 <;>
      simp only [hst] at hunf
    · rw [hunf]
      refine ⟨⟨hs, rfl⟩, ?_, ?_⟩
      · intro db1 h
        have : fetchLoop ctx s.db (sub :: rest) = .error e := by
          simp only [fetchLoop, hst]
        rw [this] at h
        cases h
      · intro e' h
        have : fetchLoop ctx s.db (sub :: rest) = .error e := by
          simp only [fetchLoop, hst]
        rw [this] at h
        exact congrArg Except.error (Except.error.inj h)
    · rw [hunf]
      obtain ⟨⟨hl, hc⟩, hok, herr⟩ := ih { s with db := db1 } hs
      refine ⟨⟨hl, hc⟩, ?_, ?_⟩
      · intro db2 h
        have h' : fetchLoop ctx db1 rest = .ok db2 := by
          have : fetchLoop ctx s.db (sub :: rest) = fetchLoop ctx db1 rest := by
            simp only [fetchLoop, hst]
          rw [this] at h
          exact h
        exact hok db2 h'
      · intro e h
        have h' : fetchLoop ctx db1 rest = .error e := by
          have : fetchLoop ctx s.db (sub :: rest) = fetchLoop ctx db1 rest := by
            simp only [fetchLoop, hst]
          rw [this] at h
          exact h
        exact herr e h'

/-- One guarded `fetch` call: the flag ends `false` on both exit paths, the
fetch counter rises by exactly one (no read inside re-entered `fetch`), and
the state change is exactly that of the transactional `fetch`. -/
theorem fetchM_spec (env : ProgramEnv) (fuel : Nat) (ctx : FetchCtx)
    (subs : List Submission) (s : MgrState) :
    (fetchM env fuel ctx subs s).1.locked = false
    ∧ (fetchM env fuel ctx subs s).1.fetchCount = s.fetchCount + 1
    ∧ (fetchM env fuel ctx subs s).1.db = (fetch ctx s.db subs).1
    ∧ (fetchM env fuel ctx subs s).2 = (fetch ctx s.db subs).2 := by
  obtain ⟨⟨hl, hc⟩, hok, herr⟩ := fetchLoopM_spec env fuel ctx subs
    { s with locked := true, fetchCount := s.fetchCount + 1 } rfl
  rcases hL : fetchLoop ctx s.db subs with e | db1
  · have h2 := herr e hL
    rcases hM : fetchLoopM env fuel ctx
        { s with locked := true, fetchCount := s.fetchCount + 1 } subs with
      ⟨s2, r2⟩
    rw [hM] at h2 hl hc
    rcases r2 with e' | u
    · have he : e' = e := Except.error.inj h2
      subst he
      have hfetch : fetch ctx s.db subs = (s.db, .error e') := by
        simp only [fetch, hL]
      simp only [fetchM, hM, hfetch]
      refine ⟨?_, ?_, ?_, ?_⟩ <;> first | exact hc | trivial
    · cases h2
  · have h2 := hok db1 hL
    have hfetch : fetch ctx s.db subs = (db1, .ok ()) := by
      simp only [fetch, hL]
    simp only [fetchM, h2, hfetch]
    refine ⟨?_, ?_, ?_, ?_⟩ <;> trivial

/-- The program loop of an unlocked read: one fetch per configured program,
flag `false` afterwards. -/
theorem fetchAllM_spec (env : ProgramEnv) (fuel : Nat) :
    ∀ (lst : List (FetchCtx × List Submission)) (s : MgrState),
      s.locked = false →
      (fetchAllM env fuel lst s).locked = false
      ∧ (fetchAllM env fuel lst s).fetchCount = s.fetchCount + lst.length := by
  intro lst
  induction lst with
  | nil =>
    intro s hs
    exact ⟨by simp only [fetchAllM]; exact hs, by simp only [fetchAllM]; rfl⟩
  | cons p rest ih =>
    intro s hs
    have hone := fetchM_spec env fuel p.1 p.2 s
    have hnext := ih (fetchM env fuel p.1 p.2 s).1 hone.1
    have hunf : fetchAllM env fuel (p :: rest) s
        = fetchAllM env fuel rest (fetchM env fuel p.1 p.2 s).1 := by
      simp only [fetchAllM]
    rw [hunf]
    refine ⟨hnext.1, ?_⟩
    rw [hnext.2, hone.2.1, List.length_cons]
    omega

/-- C5: the manager's `locked` flag is `false` outside any fetch and is reset
on every exit path of `fetch`, including failure; while it is set, the
manager reads performed inside the upsert loop never trigger a nested fetch,
so one `fetch` call increments the invocation counter by exactly one and the
database changes exactly as the unguarded transactional `fetch` prescribes;
and an unlocked read access fetches each configured program exactly once and
leaves the flag `false`. -/
theorem manager_lock_guard (env : ProgramEnv) (fuel : Nat) (ctx : FetchCtx)
    (subs : List Submission) (s : MgrState) :
    ((fetchM env fuel ctx subs s).1.locked = false
      ∧ (fetchM env fuel ctx subs s).1.fetchCount = s.fetchCount + 1)
    ∧ ((fetchM env fuel ctx subs s).1.db = (fetch ctx s.db subs).1
      ∧ (fetchM env fuel ctx subs s).2 = (fetch ctx s.db subs).2)
    ∧ (s.locked = false →
        (getQuerySetM env (fuel + 1) s).locked = false
        ∧ (getQuerySetM env (fuel + 1) s).fetchCount
            = s.fetchCount + env.length) := by
  obtain ⟨h1, h2, h3, h4⟩ := fetchM_spec env fuel ctx subs s
  refine ⟨⟨h1, h2⟩, ⟨h3, h4⟩, ?_⟩
  intro hs
  have hunf : getQuerySetM env (fuel + 1) s = fetchAllM env fuel env s := by
    simp [getQuerySetM, hs]
  rw [hunf]
  exact fetchAllM_spec env fuel env s hs

/-- Witness for C5: one configured program with one resolvable submission (so
the upsert loop really performs a guarded read); a read access on the
unlocked manager invokes `fetch` exactly once and leaves the flag down. -/
theorem manager_lock_guard_witness :
    (getQuerySetM
        [(⟨1, ⟨some 1, none, none, none⟩, [⟨10, "alice"⟩], []⟩, [⟨101, [⟨1, "alice"⟩]⟩])]
        1 ⟨false, 0, ⟨[], []⟩⟩).locked = false
    ∧ (getQuerySetM
        [(⟨1, ⟨some 1, none, none, none⟩, [⟨10, "alice"⟩], []⟩, [⟨101, [⟨1, "alice"⟩]⟩])]
        1 ⟨false, 0, ⟨[], []⟩⟩).fetchCount = 1 := by
  have h := (manager_lock_guard
    [(⟨1, ⟨some 1, none, none, none⟩, [⟨10, "alice"⟩], []⟩, [⟨101, [⟨1, "alice"⟩]⟩])]
    0 ⟨1, ⟨some 1, none, none, none⟩, [⟨10, "alice"⟩], []⟩ [⟨101, [⟨1, "alice"⟩]⟩]
    ⟨false, 0, ⟨[], []⟩⟩).2.2 rfl
  exact ⟨h.1, by simpa using h.2⟩

end ESPApp
